import Mathlib

/-!
Verification of the dos2unix-r repository (src/lib.rs, src/main.rs,
src/bin/unix2dos.rs) against its natural-language specification.

Bytes are modelled as `Nat` (source bytes are `u8`; all byte values used by
the conversion logic are compared for equality or against constants below
32, where `Nat` and `u8` agree, and the conversions never fabricate values
outside 0..=255). Byte buffers are `List Nat`.

Diagnostic-only arguments of the source functions (`verbose`, `progname`)
only drive `eprintln!` logging and never influence the returned data; they
are dropped from the embedding.
-/

set_option autoImplicit false
set_option linter.unusedVariables false
set_option linter.unnecessarySeqFocus false

deriving instance DecidableEq for Except

/-- Enum `ConversionMode` from src/lib.rs. -/
inductive ConversionMode : Type
  | ToUnix : ConversionMode
  | ToDos : ConversionMode
  | ToMac : ConversionMode
deriving DecidableEq

/-- The control-marker test from `detect_binary` (src/lib.rs line 31):
`byte < 32 && byte != b'\n' && byte != b'\r' && byte != b'\t' && byte != 0x0C`. -/
def isCtrl (b : Nat) : Bool :=
  decide (b < 32 ∧ b ≠ 10 ∧ b ≠ 13 ∧ b ≠ 9 ∧ b ≠ 12)

/-- The scanning loop of `detect_binary` (src/lib.rs lines 29-54), carrying the
running 1-based `line_number`. An error carries `(byte, line_number)`, the data
embedded in the `io::Error` message the source builds. With `force` set the
source logs and `break`s out of the loop, returning `Ok(())`. -/
def detectBinaryGo (force : Bool) : List Nat → Nat → Except (Nat × Nat) Unit
  | [], _ => Except.ok ()
  | b :: rest, line =>
    if isCtrl b then
      if force then Except.ok () else Except.error (b, line)
    else
      detectBinaryGo force rest (if b = 10 then line + 1 else line)

/-- Function `detect_binary` from src/lib.rs (lines 23-56); `line_number` starts at 1. -/
def detect_binary (content : List Nat) (force : Bool) : Except (Nat × Nat) Unit :=
  detectBinaryGo force content 1

/-- The `ToUnix` arm of the conversion loop in `convert_line_endings`
(src/lib.rs lines 88-113). A `\r` directly followed by `\n` is collapsed to
`\n` (both bytes consumed, `prev_byte` left at `\r` since the source only
records the byte fetched at the top of the loop); any other byte is passed
through. Returns the emitted bytes and the final `prev_byte`. -/
def toUnixLoop : List Nat → Option Nat → List Nat × Option Nat
  | [], p => ([], p)
  | [b], _ => ([b], some b)
  | b :: c :: rest, p =>
    if b = 13 ∧ c = 10 then
      ((10 :: (toUnixLoop rest (some 13)).1), (toUnixLoop rest (some 13)).2)
    else
      ((b :: (toUnixLoop (c :: rest) (some b)).1), (toUnixLoop (c :: rest) (some b)).2)

/-- The `ToDos` arm of the conversion loop in `convert_line_endings`
(src/lib.rs lines 114-133). A `\n` whose `prev_byte` is not `\r` gets a `\r`
inserted before it; every byte is passed through and recorded as `prev_byte`. -/
def toDosLoop : List Nat → Option Nat → List Nat × Option Nat
  | [], p => ([], p)
  | b :: rest, p =>
    if b = 10 then
      if p = some 13 then
        ((10 :: (toDosLoop rest (some b)).1), (toDosLoop rest (some b)).2)
      else
        ((13 :: 10 :: (toDosLoop rest (some b)).1), (toDosLoop rest (some b)).2)
    else
      ((b :: (toDosLoop rest (some b)).1), (toDosLoop rest (some b)).2)

/-- The `ToMac` arm of the conversion loop in `convert_line_endings`
(src/lib.rs lines 134-155). A `\n` whose `prev_byte` is not `\r` is replaced
by `\r`; a `\n` preceded by `\r` is kept as `\n`. -/
def toMacLoop : List Nat → Option Nat → List Nat × Option Nat
  | [], p => ([], p)
  | b :: rest, p =>
    if b = 10 then
      (((if p = some 13 then 10 else 13) :: (toMacLoop rest (some b)).1), (toMacLoop rest (some b)).2)
    else
      ((b :: (toMacLoop rest (some b)).1), (toMacLoop rest (some b)).2)

/-- Dispatch of the `match conversion_mode` inside the loop of
`convert_line_endings` (src/lib.rs lines 87-156). -/
def convLoop : ConversionMode → List Nat → Option Nat → List Nat × Option Nat
  | ConversionMode.ToUnix, l, p => toUnixLoop l p
  | ConversionMode.ToDos, l, p => toDosLoop l p
  | ConversionMode.ToMac, l, p => toMacLoop l p

/-- The per-mode line terminator appended by the `add_eol` block of
`convert_line_endings` (src/lib.rs lines 166-173). -/
def eolBytes : ConversionMode → List Nat
  | ConversionMode.ToUnix => [10]
  | ConversionMode.ToDos => [13, 10]
  | ConversionMode.ToMac => [13]

/-- The `add_eol` block of `convert_line_endings` (src/lib.rs lines 160-177):
if the final `prev_byte` exists and is neither `\n` nor `\r`, the mode's
terminator is appended. -/
def eolApp (mode : ConversionMode) (add_eol : Bool) (p : Option Nat) : List Nat :=
  if add_eol then
    match p with
    | some lb => if lb ≠ 10 ∧ lb ≠ 13 then eolBytes mode else []
    | none => []
  else []

/-- The byte-transcoding core of `convert_line_endings` (src/lib.rs lines
83-177): the conversion loop started with `prev_byte = None`, followed by the
`add_eol` block. BOM handling and the binary gate live in
`convert_line_endings` below. -/
def transcode (mode : ConversionMode) (add_eol : Bool) (content : List Nat) : List Nat :=
  (convLoop mode content none).1 ++ eolApp mode add_eol (convLoop mode content none).2

/-- The UTF-8 byte order mark `EF BB BF`. -/
def bomBytes : List Nat := [239, 187, 191]

/-- Method `starts_with` on byte slices: `listStartsWith pat l` holds when `pat` is
an initial segment of `l`. -/
def listStartsWith : List Nat → List Nat → Bool
  | [], _ => true
  | _ :: _, [] => false
  | a :: as, b :: bs => a = b && listStartsWith as bs

/-- Function `convert_line_endings` from src/lib.rs (lines 58-189): strip a leading
UTF-8 BOM (re-emitting it when `keep_bom`), gate on `detect_binary`, then run
the conversion loop and the `add_eol` block. Errors are the binary-detection
errors `(byte, line)`. -/
def convert_line_endings (content : List Nat) (keep_bom force : Bool)
    (mode : ConversionMode) (add_eol : Bool) : Except (Nat × Nat) (List Nat) :=
  let hasBom := listStartsWith bomBytes content
  let body := if hasBom then content.drop 3 else content
  match detect_binary body force with
  | Except.error e => Except.error e
  | Except.ok _ =>
    Except.ok ((if hasBom ∧ keep_bom then bomBytes else []) ++ transcode mode add_eol body)

/-- Function `dos2unix` from src/main.rs (lines 343-352): drop each `\r` whose
peeked successor is `\n`; all other bytes pass through. Stateless: carries no
context between calls. -/
def dos2unix : List Nat → List Nat
  | [] => []
  | [b] => [b]
  | b :: c :: rest =>
    if b = 13 ∧ c = 10 then dos2unix (c :: rest) else b :: dos2unix (c :: rest)

/-- Function `unix2dos` from src/main.rs (lines 354-363): push `\r` before every `\n`,
unconditionally; all bytes pass through. -/
def unix2dos : List Nat → List Nat
  | [] => []
  | b :: rest =>
    if b = 10 then 13 :: 10 :: unix2dos rest else b :: unix2dos rest

/-- Function `is_binary` from src/main.rs (lines 375-379): scan the first 8000 bytes
for a NUL byte. -/
def is_binary (content : List Nat) : Bool :=
  (content.take (min content.length 8000)).any (fun b => b = 0)

/-- Split a buffer into consecutive chunks of `size` bytes (the last chunk may
be shorter), as the read loop of `convert_large_file` (src/main.rs lines
305-313) does with `size = 8192`; a chunk size of `0` yields no chunks so the
recursion is total (the source's size is fixed and positive). -/
def chunkList (size : Nat) (l : List Nat) : List (List Nat) :=
  if h : l = [] ∨ size = 0 then [] else l.take size :: chunkList size (l.drop size)
termination_by l.length
decreasing_by
  push_neg at h
  have hpos : 0 < l.length := List.length_pos.mpr h.1
  simp only [List.length_drop]
  omega

/-- The streaming loop of `convert_large_file` (src/main.rs lines 305-313):
each chunk is fed to the conversion function independently and the outputs are
written (concatenated) in order. -/
def chunkedConvert (f : List Nat → List Nat) (size : Nat) (l : List Nat) : List Nat :=
  ((chunkList size l).map f).flatten

/-- Type `EncodingKind`: the values returned by `detect_encoding_and_bom` /
`get_encoding` in src/main.rs (the four `encoding_rs` statics used). -/
inductive EncodingKind : Type
  | UTF8 : EncodingKind
  | UTF16LE : EncodingKind
  | UTF16BE : EncodingKind
  | WINDOWS1252 : EncodingKind
deriving DecidableEq

/-- Method `str::to_lowercase` modelled character-wise (the encoding names the
source compares against are plain ASCII, where `to_lowercase` lowercases each
character independently). -/
def strToLower (s : String) : String := String.mk (s.data.map Char.toLower)

/-- Function `get_encoding` from src/main.rs (lines 365-373): lowercase the name and
map the four recognised names; anything else falls back to UTF-8. -/
def get_encoding (enc : String) : EncodingKind :=
  if strToLower enc = "utf8" then EncodingKind.UTF8
  else if strToLower enc = "utf16le" then EncodingKind.UTF16LE
  else if strToLower enc = "utf16be" then EncodingKind.UTF16BE
  else if strToLower enc = "iso-8859-1" then EncodingKind.WINDOWS1252
  else EncodingKind.UTF8

/-- Function `detect_encoding_and_bom` from src/main.rs (lines 142-172). The reader is
modelled by the byte sequence it would yield from the start; the source reads
at most 4 bytes into a zeroed 4-byte buffer and seeks back to the start, so
`read_bytes = min content.length 4` and the arm guards `3..=4` / `2..=4`
combined with `starts_with` on the buffer are equivalent to the length bounds
paired with `starts_with` on the content itself (the zero padding of the
buffer can never complete a BOM pattern that the guard admits). The arms are
tried in the source's order. -/
def detect_encoding_and_bom (specified : String) (content : List Nat) :
    Except String (EncodingKind × Nat) :=
  if specified ≠ "auto" then Except.ok (get_encoding specified, 0)
  else
    let rb := min content.length 4
    if 3 ≤ rb ∧ content.take 3 = [239, 187, 191] then Except.ok (EncodingKind.UTF8, 3)
    else if 2 ≤ rb ∧ content.take 2 = [255, 254] then Except.ok (EncodingKind.UTF16LE, 2)
    else if 2 ≤ rb ∧ content.take 2 = [254, 255] then Except.ok (EncodingKind.UTF16BE, 2)
    else if rb = 0 then Except.error "File is empty"
    else Except.ok (EncodingKind.UTF8, 0)

/-- The decode step `String::from_utf8_lossy` followed by `encoding.encode`
in `convert_file` (src/main.rs lines 247-250). For the UTF-8 encoding this
round trip is the identity on valid UTF-8 byte sequences, which is the only
case exercised in this development; it is modelled as the identity. -/
def utf8EncodeRoundtrip (l : List Nat) : List Nat := l

/-- The explicit-encoding read path of `convert_file` (src/main.rs lines
213-218): `DecodeReaderBytesBuilder::new().encoding(Some(encoding))` builds
the `encoding_rs` decoder with BOM removal (`new_decoder_with_bom_removal`),
so a leading BOM matching the encoding is stripped while reading; for a
valid UTF-8 source the decode is otherwise the identity on the bytes. -/
def decodeWithBomRemoval (raw : List Nat) : List Nat :=
  if listStartsWith bomBytes raw then raw.drop 3 else raw

/-- Rust slice `&content[..n]`: defined only for `n ≤ content.len()`; an
out-of-range index aborts the program (panic), modelled as `none`. -/
def sliceTo (content : List Nat) (n : Nat) : Option (List Nat) :=
  if n ≤ content.length then some (content.take n) else none

/-- Rust slice `&content[n..]`: defined only for `n ≤ content.len()`; an
out-of-range start index aborts the program (panic), modelled as `none`. -/
def sliceFrom (content : List Nat) (n : Nat) : Option (List Nat) :=
  if n ≤ content.length then some (content.drop n) else none

/-- The content pipeline of `convert_file` (src/main.rs lines 210-251) for a
UTF-8 source, from the raw file bytes to the bytes written to the temporary
file: `bom_size` comes from `detect_encoding_and_bom` on the raw bytes; the
decoder strips a leading BOM while reading; when `remove_bom` is set the
code then slices `content[bom_size..]`; the conversion runs on the result;
and the writer emits `content[..bom_size]` (only when `keep_bom` and not
`remove_bom`) followed by the encoded conversion. `none` is a panic from an
out-of-range slice. -/
def convert_file_output (raw : List Nat) (bom_size : Nat)
    (keep_bom remove_bom : Bool) (convert_fn : List Nat → List Nat) :
    Option (List Nat) :=
  let content := decodeWithBomRemoval raw
  match (if remove_bom ∧ bom_size > 0 then sliceFrom content bom_size else some content) with
  | none => none
  | some content2 =>
    match (if keep_bom ∧ bom_size > 0 ∧ ¬remove_bom then sliceTo content2 bom_size
        else some []) with
    | none => none
    | some bomPart => some (bomPart ++ utf8EncodeRoundtrip (convert_fn content2))

/-- Contents of the three filesystem paths touched while converting one file:
the original path, the derived `.tmp` path, and the backup path
(`<name>~` in lib.rs, `<name>.bak` in main.rs). `none` means no file at that
path. -/
structure Fs : Type where
  orig : Option (List Nat)
  tmp : Option (List Nat)
  bak : Option (List Nat)
deriving DecidableEq

/-- Step `fs::write(&temp_path, converted_content)`. -/
def fsWriteTmp (c : List Nat) (s : Fs) : Fs := { s with tmp := some c }

/-- Step `filetime::set_file_times(&output_path, ..)`: timestamps are not part of
the content state, so the step is the identity on contents. -/
def fsSetTimesTmp (s : Fs) : Fs := s

/-- Step `fs::set_permissions(&temp_path, ..)`: permissions are not part of the
content state, so the step is the identity on contents. -/
def fsSetPermsTmp (s : Fs) : Fs := s

/-- Step `fs::remove_file(input)` in main.rs `convert_file`. -/
def fsRemoveOrig (s : Fs) : Fs := { s with orig := none }

/-- Step `fs::rename(input, &backup_path)` in main.rs `convert_file`: the original
is moved to the backup path. -/
def fsRenameOrigToBak (s : Fs) : Fs := { s with bak := s.orig, orig := none }

/-- Step `fs::copy(input_path, &backup_filename)` in lib.rs `process_file`: the
original is copied to the backup path and remains in place. -/
def fsCopyOrigToBak (s : Fs) : Fs := { s with bak := s.orig }

/-- Step `fs::rename(&temp_path, output_path)`: the temporary file replaces the
original atomically. -/
def fsRenameTmpToOrig (s : Fs) : Fs := { s with orig := s.tmp, tmp := none }

/-- The filesystem steps `convert_file` (src/main.rs lines 238-272, overwrite
mode, `keep_date` set) performs after conversion, in source order: write the
temporary file, copy timestamps onto it, then either move the original to the
backup path (`backup`) or delete the original, and finally rename the
temporary file onto the original path. -/
def mainConvertFileSteps (backup : Bool) (converted : List Nat) : List (Fs → Fs) :=
  [fsWriteTmp converted, fsSetTimesTmp,
   if backup then fsRenameOrigToBak else fsRemoveOrig,
   fsRenameTmpToOrig]

/-- The filesystem steps `process_file` (src/lib.rs lines 213-239) performs
after a successful conversion, in source order: optionally copy the original
to the backup path, write the temporary file, set its permissions, and rename
it onto the output path. -/
def libProcessFileSteps (backup : Bool) (converted : List Nat) : List (Fs → Fs) :=
  (if backup then [fsCopyOrigToBak] else []) ++
  [fsWriteTmp converted, fsSetPermsTmp, fsRenameTmpToOrig]

/-- Run a list of filesystem steps in order. -/
def runSteps (steps : List (Fs → Fs)) (s : Fs) : Fs :=
  steps.foldl (fun t f => f t) s

/-- Run only the first `k` steps: execution stopped by an I/O failure at
step `k+1` leaves exactly this state. -/
def runUpTo (steps : List (Fs → Fs)) (k : Nat) (s : Fs) : Fs :=
  runSteps (steps.take k) s

/-- The conversion-mode selection repeated at the three call sites of the
unix2dos binary (src/bin/unix2dos.rs lines 74-78, 120-124 and 146-150):
`if mac_mode { ConversionMode::ToDos } else { ConversionMode::ToDos }`. -/
def unix2dosSelectMode (mac_mode : Bool) : ConversionMode :=
  if mac_mode then ConversionMode.ToDos else ConversionMode.ToDos

/-- Specification-side predicate for claim C4: every `\r` begins a `\r\n`
pair and every `\n` completes one — line terminators are exactly `\r\n`. -/
def crlfOnly : List Nat → Bool
  | [] => true
  | [b] => decide (b ≠ 10 ∧ b ≠ 13)
  | b :: c :: rest =>
    if b = 13 then decide (c = 10) && crlfOnly rest
    else decide (b ≠ 10) && crlfOnly (c :: rest)

/-- The last byte of `l`, or `p` when `l` is empty: the value of a
`prev_byte` register equal to `p` after consuming all of `l` one byte at a
time. -/
def lastPrev (p : Option Nat) : List Nat → Option Nat
  | [] => p
  | b :: rest => lastPrev (some b) rest

/-- The last byte of a buffer, if any. -/
def lastByte (l : List Nat) : Option Nat := lastPrev none l

/-- Specification-side predicate: reading `l` after a byte context `p`, every
`\n` is immediately preceded by `\r`. -/
def noBareLF (p : Option Nat) : List Nat → Bool
  | [] => true
  | b :: rest => (decide (b ≠ 10) || decide (p = some 13)) && noBareLF (some b) rest

/-! Helper lemmas about the carried `prev_byte` and the loop outputs. -/

theorem lastPrev_append (p : Option Nat) (xs ys : List Nat) :
    lastPrev p (xs ++ ys) = lastPrev (lastPrev p xs) ys := by
  induction xs generalizing p with
  | nil => rfl
  | cons x xs ih => simpa only [List.cons_append, lastPrev] using ih (some x)

theorem lastPrev_some (b : Nat) (l : List Nat) : ∃ c, lastPrev (some b) l = some c := by
  induction l generalizing b with
  | nil => exact ⟨b, rfl⟩
  | cons x xs ih => simpa only [lastPrev] using ih x

theorem lastByte_nil_iff (l : List Nat) : lastByte l = none ↔ l = [] := by
  cases l with
  | nil => simp [lastByte, lastPrev]
  | cons b rest =>
    obtain ⟨c, hc⟩ := lastPrev_some b rest
    simp [lastByte, lastPrev, hc]

theorem lastByte_cons_of_ne_nil (a : Nat) (l : List Nat) (h : l ≠ []) :
    lastByte (a :: l) = lastByte l := by
  cases l with
  | nil => exact absurd rfl h
  | cons x xs => rfl

theorem noBareLF_append (p : Option Nat) (xs ys : List Nat) :
    noBareLF p (xs ++ ys) = (noBareLF p xs && noBareLF (lastPrev p xs) ys) := by
  induction xs generalizing p with
  | nil => simp [noBareLF, lastPrev]
  | cons x xs ih => simp [noBareLF, lastPrev, ih (some x), Bool.and_assoc]

theorem toDosLoop_snd (l : List Nat) (p : Option Nat) :
    (toDosLoop l p).2 = lastPrev p l := by
  induction l generalizing p with
  | nil => rfl
  | cons b rest ih =>
    simp only [toDosLoop, lastPrev]
    split_ifs <;> simp [ih]

theorem toMacLoop_snd (l : List Nat) (p : Option Nat) :
    (toMacLoop l p).2 = lastPrev p l := by
  induction l generalizing p with
  | nil => rfl
  | cons b rest ih =>
    simp only [toMacLoop, lastPrev]
    split_ifs <;> simp [ih]

theorem toDosLoop_fst_ne_nil (b : Nat) (rest : List Nat) (p : Option Nat) :
    (toDosLoop (b :: rest) p).1 ≠ [] := by
  simp only [toDosLoop]
  split_ifs <;> simp

theorem toMacLoop_fst_ne_nil (b : Nat) (rest : List Nat) (p : Option Nat) :
    (toMacLoop (b :: rest) p).1 ≠ [] := by
  simp only [toMacLoop]
  split_ifs <;> simp

theorem toDosLoop_wellformed (l : List Nat) : ∀ (p q : Option Nat),
    (p = some 13 → q = some 13) → noBareLF q (toDosLoop l p).1 = true := by
  induction l with
  | nil => intro p q h; rfl
  | cons b rest ih =>
    intro p q hpq
    by_cases hb : b = 10
    · subst hb
      by_cases hp : p = some 13
      · have hq := hpq hp
        simp only [toDosLoop, if_pos rfl, if_pos hp]
        simp [noBareLF, hq]
        exact ih (some 10) (some 10) (fun h => h)
      · simp only [toDosLoop, if_pos rfl, if_neg hp]
        simp [noBareLF]
        exact ih (some 10) (some 10) (fun h => h)
    · simp only [toDosLoop, if_neg hb]
      simp [noBareLF, hb]
      exact ih (some b) (some b) (fun h => h)

theorem toMacLoop_wellformed (l : List Nat) : ∀ (p q : Option Nat),
    (p = some 13 → q = some 13) → noBareLF q (toMacLoop l p).1 = true := by
  induction l with
  | nil => intro p q h; rfl
  | cons b rest ih =>
    intro p q hpq
    by_cases hb : b = 10
    · subst hb
      by_cases hp : p = some 13
      · have hq := hpq hp
        simp only [toMacLoop, if_pos rfl, if_pos hp]
        simp [noBareLF, hq]
        exact ih (some 10) (some 10) (fun h => h)
      · simp only [toMacLoop, if_pos rfl, if_neg hp]
        simp [noBareLF]
        exact ih (some 10) (some 13) (fun _ => rfl)
    · simp only [toMacLoop, if_neg hb]
      simp [noBareLF, hb]
      exact ih (some b) (some b) (fun h => h)

theorem toDosLoop_fix (l : List Nat) : ∀ (p : Option Nat),
    noBareLF p l = true → toDosLoop l p = (l, lastPrev p l) := by
  induction l with
  | nil => intro p h; rfl
  | cons b rest ih =>
    intro p h
    simp only [noBareLF, Bool.and_eq_true, Bool.or_eq_true, decide_eq_true_eq] at h
    obtain ⟨h1, h2⟩ := h
    by_cases hb : b = 10
    · subst hb
      have hp : p = some 13 := by
        rcases h1 with h1 | h1
        · exact absurd rfl h1
        · exact h1
      simp only [toDosLoop, if_pos rfl, if_pos hp]
      simp [ih (some 10) h2, lastPrev]
    · simp only [toDosLoop, if_neg hb]
      simp [ih (some b) h2, lastPrev]

theorem toMacLoop_fix (l : List Nat) : ∀ (p : Option Nat),
    noBareLF p l = true → toMacLoop l p = (l, lastPrev p l) := by
  induction l with
  | nil => intro p h; rfl
  | cons b rest ih =>
    intro p h
    simp only [noBareLF, Bool.and_eq_true, Bool.or_eq_true, decide_eq_true_eq] at h
    obtain ⟨h1, h2⟩ := h
    by_cases hb : b = 10
    · subst hb
      have hp : p = some 13 := by
        rcases h1 with h1 | h1
        · exact absurd rfl h1
        · exact h1
      simp only [toMacLoop, if_pos rfl, if_pos hp]
      simp [ih (some 10) h2, lastPrev]
    · simp only [toMacLoop, if_neg hb]
      simp [ih (some b) h2, lastPrev]

theorem toDosLoop_cons (b : Nat) (rest : List Nat) (p : Option Nat) :
    toDosLoop (b :: rest) p =
      if b = 10 then
        if p = some 13 then
          (10 :: (toDosLoop rest (some b)).1, (toDosLoop rest (some b)).2)
        else
          (13 :: 10 :: (toDosLoop rest (some b)).1, (toDosLoop rest (some b)).2)
      else (b :: (toDosLoop rest (some b)).1, (toDosLoop rest (some b)).2) := rfl

theorem toMacLoop_cons (b : Nat) (rest : List Nat) (p : Option Nat) :
    toMacLoop (b :: rest) p =
      if b = 10 then
        ((if p = some 13 then 10 else 13) :: (toMacLoop rest (some b)).1,
          (toMacLoop rest (some b)).2)
      else (b :: (toMacLoop rest (some b)).1, (toMacLoop rest (some b)).2) := rfl

theorem toDosLoop_lastByte (l : List Nat) : ∀ (p : Option Nat), l ≠ [] →
    lastByte (toDosLoop l p).1 = lastByte l := by
  induction l with
  | nil => intro p h; exact absurd rfl h
  | cons b rest ih =>
    intro p hne
    rw [toDosLoop_cons]
    cases rest with
    | nil =>
      by_cases hb : b = 10
      · subst hb
        split_ifs <;> rfl
      · rw [if_neg hb]
        rfl
    | cons c rest2 =>
      have hne2 : (toDosLoop (c :: rest2) (some b)).1 ≠ [] := toDosLoop_fst_ne_nil c rest2 (some b)
      have ihr := ih (some b) (by simp)
      by_cases hb : b = 10
      · subst hb
        rw [if_pos rfl]
        split_ifs
        · dsimp only
          rw [lastByte_cons_of_ne_nil 10 _ hne2, ihr,
            lastByte_cons_of_ne_nil 10 (c :: rest2) (by simp)]
        · dsimp only
          rw [lastByte_cons_of_ne_nil 13 _ (by simp),
            lastByte_cons_of_ne_nil 10 _ hne2, ihr,
            lastByte_cons_of_ne_nil 10 (c :: rest2) (by simp)]
      · rw [if_neg hb]
        dsimp only
        rw [lastByte_cons_of_ne_nil b _ hne2, ihr,
          lastByte_cons_of_ne_nil b (c :: rest2) (by simp)]

theorem toMacLoop_lastByte_mem (l : List Nat) : ∀ (p : Option Nat),
    (lastByte l = some 10 ∨ lastByte l = some 13) →
    (lastByte (toMacLoop l p).1 = some 10 ∨ lastByte (toMacLoop l p).1 = some 13) := by
  induction l with
  | nil => intro p h; simp [lastByte, lastPrev] at h
  | cons b rest ih =>
    intro p hl
    rw [toMacLoop_cons]
    cases rest with
    | nil =>
      simp only [lastByte, lastPrev] at hl
      by_cases hb : b = 10
      · subst hb
        rw [if_pos rfl]
        split_ifs <;> simp [lastByte, lastPrev]
      · have hb13 : b = 13 := by
          rcases hl with hl | hl
          · exact absurd (Option.some.inj hl) hb
          · exact Option.some.inj hl
        subst hb13
        rw [if_neg (by norm_num : ¬(13 : Nat) = 10)]
        dsimp only
        simp [lastByte, lastPrev]
    | cons c rest2 =>
      have hne2 : (toMacLoop (c :: rest2) (some b)).1 ≠ [] := toMacLoop_fst_ne_nil c rest2 (some b)
      have hl2 : lastByte (c :: rest2) = some 10 ∨ lastByte (c :: rest2) = some 13 := by
        rwa [lastByte_cons_of_ne_nil b (c :: rest2) (by simp)] at hl
      have ihr := ih (some b) hl2
      by_cases hb : b = 10
      · subst hb
        rw [if_pos rfl]
        split_ifs <;> (dsimp only; rw [lastByte_cons_of_ne_nil _ _ hne2]; exact ihr)
      · rw [if_neg hb]
        dsimp only
        rw [lastByte_cons_of_ne_nil b _ hne2]
        exact ihr

theorem noBareLF_eolApp_dos (ae : Bool) (q p : Option Nat) :
    noBareLF q (eolApp ConversionMode.ToDos ae p) = true := by
  cases ae with
  | false => rfl
  | true =>
    cases p with
    | none => rfl
    | some lb =>
      by_cases hlb : lb ≠ 10 ∧ lb ≠ 13
      · simp [eolApp, hlb, eolBytes, noBareLF]
      · simp [eolApp, hlb, noBareLF]

theorem noBareLF_eolApp_mac (ae : Bool) (q p : Option Nat) :
    noBareLF q (eolApp ConversionMode.ToMac ae p) = true := by
  cases ae with
  | false => rfl
  | true =>
    cases p with
    | none => rfl
    | some lb =>
      by_cases hlb : lb ≠ 10 ∧ lb ≠ 13
      · simp [eolApp, hlb, eolBytes, noBareLF]
      · simp [eolApp, hlb, noBareLF]

theorem transcode_dos_idem (ae : Bool) (l : List Nat) :
    transcode ConversionMode.ToDos ae (transcode ConversionMode.ToDos ae l)
      = transcode ConversionMode.ToDos ae l := by
  have hy : transcode ConversionMode.ToDos ae l
      = (toDosLoop l none).1 ++ eolApp ConversionMode.ToDos ae (lastByte l) := by
    simp [transcode, convLoop, toDosLoop_snd, lastByte]
  have hwf : noBareLF none
      ((toDosLoop l none).1 ++ eolApp ConversionMode.ToDos ae (lastByte l)) = true := by
    rw [noBareLF_append, toDosLoop_wellformed l none none (fun h => h), noBareLF_eolApp_dos]
    rfl
  have hfix := toDosLoop_fix _ none hwf
  have happ : eolApp ConversionMode.ToDos ae
      (lastPrev none ((toDosLoop l none).1 ++ eolApp ConversionMode.ToDos ae (lastByte l)))
      = [] := by
    cases ae with
    | false => rfl
    | true =>
      by_cases hnil : l = []
      · subst hnil; rfl
      · rcases hlb : lastByte l with _ | lb
        · rw [lastByte_nil_iff] at hlb; exact absurd hlb hnil
        · by_cases hcase : lb ≠ 10 ∧ lb ≠ 13
          · rw [show eolApp ConversionMode.ToDos true (some lb) = [13, 10] by
              simp [eolApp, hcase, eolBytes]]
            rw [lastPrev_append]
            rfl
          · rw [show eolApp ConversionMode.ToDos true (some lb) = ([] : List Nat) by
              simp [eolApp, hcase]]
            rw [List.append_nil,
              show lastPrev none (toDosLoop l none).1 = lastByte (toDosLoop l none).1 from rfl,
              toDosLoop_lastByte l none hnil, hlb]
            simp [eolApp, hcase]
  rw [hy]
  simp [transcode, convLoop, hfix, happ]

theorem transcode_mac_idem (ae : Bool) (l : List Nat) :
    transcode ConversionMode.ToMac ae (transcode ConversionMode.ToMac ae l)
      = transcode ConversionMode.ToMac ae l := by
  have hy : transcode ConversionMode.ToMac ae l
      = (toMacLoop l none).1 ++ eolApp ConversionMode.ToMac ae (lastByte l) := by
    simp [transcode, convLoop, toMacLoop_snd, lastByte]
  have hwf : noBareLF none
      ((toMacLoop l none).1 ++ eolApp ConversionMode.ToMac ae (lastByte l)) = true := by
    rw [noBareLF_append, toMacLoop_wellformed l none none (fun h => h), noBareLF_eolApp_mac]
    rfl
  have hfix := toMacLoop_fix _ none hwf
  have happ : eolApp ConversionMode.ToMac ae
      (lastPrev none ((toMacLoop l none).1 ++ eolApp ConversionMode.ToMac ae (lastByte l)))
      = [] := by
    cases ae with
    | false => rfl
    | true =>
      by_cases hnil : l = []
      · subst hnil; rfl
      · rcases hlb : lastByte l with _ | lb
        · rw [lastByte_nil_iff] at hlb; exact absurd hlb hnil
        · by_cases hcase : lb ≠ 10 ∧ lb ≠ 13
          · rw [show eolApp ConversionMode.ToMac true (some lb) = [13] by
              simp [eolApp, hcase, eolBytes]]
            rw [lastPrev_append]
            rfl
          · have hmem10 : lb = 10 ∨ lb = 13 := by
              by_cases h10 : lb = 10
              · exact Or.inl h10
              · right
                by_cases h13 : lb = 13
                · exact h13
                · exact absurd ⟨h10, h13⟩ hcase
            have hmem : lastByte (toMacLoop l none).1 = some 10
                ∨ lastByte (toMacLoop l none).1 = some 13 := by
              apply toMacLoop_lastByte_mem
              rw [hlb]
              rcases hmem10 with h | h <;> simp [h]
            rw [show eolApp ConversionMode.ToMac true (some lb) = ([] : List Nat) by
              simp [eolApp, hcase]]
            rw [List.append_nil,
              show lastPrev none (toMacLoop l none).1 = lastByte (toMacLoop l none).1 from rfl]
            rcases hmem with h | h <;> rw [h] <;> simp [eolApp]
  rw [hy]
  simp [transcode, convLoop, hfix, happ]

theorem toUnixLoop_cons2 (b c : Nat) (rest : List Nat) (p : Option Nat) :
    toUnixLoop (b :: c :: rest) p =
      if b = 13 ∧ c = 10 then
        (10 :: (toUnixLoop rest (some 13)).1, (toUnixLoop rest (some 13)).2)
      else
        (b :: (toUnixLoop (c :: rest) (some b)).1, (toUnixLoop (c :: rest) (some b)).2) := rfl

theorem unix2dos_cons (b : Nat) (rest : List Nat) :
    unix2dos (b :: rest) =
      if b = 10 then 13 :: 10 :: unix2dos rest else b :: unix2dos rest := rfl

theorem dos2unix_cons2 (b c : Nat) (rest : List Nat) :
    dos2unix (b :: c :: rest) =
      if b = 13 ∧ c = 10 then dos2unix (c :: rest) else b :: dos2unix (c :: rest) := rfl

theorem unix2dos_ne_nil (b : Nat) (rest : List Nat) : unix2dos (b :: rest) ≠ [] := by
  rw [unix2dos_cons]
  split_ifs <;> simp

/-- After converting a CR-free buffer with the `ToDos` loop, the `ToUnix`
loop restores the original buffer: every inserted `\r` sits directly before
the `\n` that caused it. -/
theorem dos_then_unix (l : List Nat) : ∀ (p : Option Nat), (∀ b ∈ l, b ≠ 13) →
    p ≠ some 13 → ∀ (q : Option Nat), (toUnixLoop (toDosLoop l p).1 q).1 = l := by
  induction l with
  | nil => intro p _ _ q; rfl
  | cons b rest ih =>
    intro p hl hp q
    have hb13 : b ≠ 13 := hl b (List.mem_cons_self b rest)
    have hrest : ∀ x ∈ rest, x ≠ 13 := fun x hx => hl x (List.mem_cons_of_mem b hx)
    rw [toDosLoop_cons]
    by_cases hb : b = 10
    · subst hb
      rw [if_pos rfl, if_neg hp]
      dsimp only
      rw [toUnixLoop_cons2, if_pos ⟨rfl, rfl⟩]
      dsimp only
      rw [ih (some 10) hrest (by simp) (some 13)]
    · rw [if_neg hb]
      dsimp only
      cases rest with
      | nil => rfl
      | cons c rest2 =>
        obtain ⟨x, xs, hx⟩ : ∃ x xs, (toDosLoop (c :: rest2) (some b)).1 = x :: xs := by
          cases hxx : (toDosLoop (c :: rest2) (some b)).1 with
          | nil => exact absurd hxx (toDosLoop_fst_ne_nil c rest2 (some b))
          | cons x xs => exact ⟨x, xs, rfl⟩
        rw [hx, toUnixLoop_cons2, if_neg (fun hcon => hb13 hcon.1)]
        dsimp only
        rw [← hx, ih (some b) hrest (by simp [hb13]) (some b)]

/-- `unix2dos` then `dos2unix` (the main.rs pair) restores a CR-free buffer. -/
theorem unix2dos_then_dos2unix (l : List Nat) (hl : ∀ b ∈ l, b ≠ 13) :
    dos2unix (unix2dos l) = l := by
  induction l with
  | nil => rfl
  | cons b rest ih =>
    have hb13 : b ≠ 13 := hl b (List.mem_cons_self b rest)
    have hrest : ∀ x ∈ rest, x ≠ 13 := fun x hx => hl x (List.mem_cons_of_mem b hx)
    have ih2 := ih hrest
    rw [unix2dos_cons]
    by_cases hb : b = 10
    · subst hb
      rw [if_pos rfl, dos2unix_cons2, if_pos ⟨rfl, rfl⟩]
      cases rest with
      | nil => rfl
      | cons c rest2 =>
        obtain ⟨x, xs, hx⟩ : ∃ x xs, unix2dos (c :: rest2) = x :: xs := by
          cases hxx : unix2dos (c :: rest2) with
          | nil => exact absurd hxx (unix2dos_ne_nil c rest2)
          | cons x xs => exact ⟨x, xs, rfl⟩
        rw [hx, dos2unix_cons2, if_neg (by simp), ← hx, ih2]
    · rw [if_neg hb]
      cases rest with
      | nil => rfl
      | cons c rest2 =>
        obtain ⟨x, xs, hx⟩ : ∃ x xs, unix2dos (c :: rest2) = x :: xs := by
          cases hxx : unix2dos (c :: rest2) with
          | nil => exact absurd hxx (unix2dos_ne_nil c rest2)
          | cons x xs => exact ⟨x, xs, rfl⟩
        rw [hx, dos2unix_cons2, if_neg (fun hcon => hb13 hcon.1), ← hx, ih2]

/-- After collapsing the CRLF pairs of a CRLF-only buffer with the `ToUnix`
loop, the `ToDos` loop reinserts exactly the removed `\r` bytes. -/
theorem unix_then_dos : ∀ (l : List Nat), crlfOnly l = true →
    ∀ (p : Option Nat), p ≠ some 13 → ∀ (q : Option Nat),
      (toDosLoop (toUnixLoop l q).1 p).1 = l
  | [] => by intro _ p _ q; rfl
  | [b] => by
    intro h p hp q
    have hb : b ≠ 10 ∧ b ≠ 13 := by simpa [crlfOnly] using h
    rw [show (toUnixLoop [b] q).1 = [b] from rfl, toDosLoop_cons, if_neg hb.1]
    rfl
  | b :: c :: rest => by
    intro h p hp q
    by_cases hb : b = 13
    · subst hb
      have hc : c = 10 ∧ crlfOnly rest = true := by simpa [crlfOnly] using h
      obtain ⟨hc10, hcr⟩ := hc
      subst hc10
      rw [toUnixLoop_cons2, if_pos ⟨rfl, rfl⟩]
      dsimp only
      rw [toDosLoop_cons, if_pos rfl, if_neg hp]
      dsimp only
      rw [unix_then_dos rest hcr (some 10) (by simp) (some 13)]
    · have hc : b ≠ 10 ∧ crlfOnly (c :: rest) = true := by simpa [crlfOnly, hb] using h
      obtain ⟨hb10, hcr⟩ := hc
      rw [toUnixLoop_cons2, if_neg (fun hcon => hb hcon.1)]
      dsimp only
      rw [toDosLoop_cons, if_neg hb10]
      dsimp only
      rw [unix_then_dos (c :: rest) hcr (some b) (by simp [hb]) (some b)]

/-- `dos2unix` then `unix2dos` (the main.rs pair) restores a CRLF-only
buffer. -/
theorem dos2unix_then_unix2dos : ∀ (l : List Nat), crlfOnly l = true →
    unix2dos (dos2unix l) = l
  | [] => by intro _; rfl
  | [b] => by
    intro h
    have hb : b ≠ 10 ∧ b ≠ 13 := by simpa [crlfOnly] using h
    rw [show dos2unix [b] = [b] from rfl, unix2dos_cons, if_neg hb.1]
    rfl
  | b :: c :: rest => by
    intro h
    by_cases hb : b = 13
    · subst hb
      have hc : c = 10 ∧ crlfOnly rest = true := by simpa [crlfOnly] using h
      obtain ⟨hc10, hcr⟩ := hc
      subst hc10
      rw [dos2unix_cons2, if_pos ⟨rfl, rfl⟩]
      cases rest with
      | nil => rfl
      | cons d rest2 =>
        rw [dos2unix_cons2, if_neg (by simp), unix2dos_cons, if_pos rfl,
          dos2unix_then_unix2dos (d :: rest2) hcr]
    · have hc : b ≠ 10 ∧ crlfOnly (c :: rest) = true := by simpa [crlfOnly, hb] using h
      obtain ⟨hb10, hcr⟩ := hc
      rw [dos2unix_cons2, if_neg (fun hcon => hb hcon.1), unix2dos_cons, if_neg hb10,
        dos2unix_then_unix2dos (c :: rest) hcr]

/-- The `ToDos` loop leaves a buffer with no `\n` bytes untouched (in
particular, lone `\r` Mac line endings are not converted). -/
theorem toDosLoop_no_lf (l : List Nat) : ∀ (p : Option Nat), (∀ b ∈ l, b ≠ 10) →
    (toDosLoop l p).1 = l := by
  induction l with
  | nil => intro p _; rfl
  | cons b rest ih =>
    intro p h
    have hb := h b (List.mem_cons_self b rest)
    rw [toDosLoop_cons, if_neg hb]
    dsimp only
    rw [ih (some b) (fun x hx => h x (List.mem_cons_of_mem b hx))]

theorem detectBinaryGo_force (l : List Nat) : ∀ (n : Nat),
    detectBinaryGo true l n = Except.ok () := by
  induction l with
  | nil => intro n; rfl
  | cons b rest ih =>
    intro n
    by_cases hb : isCtrl b
    · simp [detectBinaryGo, hb]
    · simp [detectBinaryGo, hb, ih]

theorem detectBinaryGo_clean (l : List Nat) : ∀ (n : Nat),
    (∀ b ∈ l, isCtrl b = false) → detectBinaryGo false l n = Except.ok () := by
  induction l with
  | nil => intro n _; rfl
  | cons b rest ih =>
    intro n h
    have hb := h b (List.mem_cons_self b rest)
    simp only [detectBinaryGo, hb, Bool.false_eq_true, if_false]
    exact ih _ (fun x hx => h x (List.mem_cons_of_mem b hx))

theorem detectBinaryGo_error (i : Nat) : ∀ (l : List Nat) (n x : Nat) (rest : List Nat),
    (∀ b ∈ l.take i, isCtrl b = false) → l.drop i = x :: rest → isCtrl x = true →
    detectBinaryGo false l n = Except.error (x, n + (l.take i).count 10) := by
  induction i with
  | zero =>
    intro l n x rest hclean hdrop hx
    rw [List.drop_zero] at hdrop
    subst hdrop
    simp [detectBinaryGo, hx]
  | succ i ih =>
    intro l n x rest hclean hdrop hx
    cases l with
    | nil => simp at hdrop
    | cons b cs =>
      have hb : isCtrl b = false := by
        apply hclean b
        rw [List.take_succ_cons]
        exact List.mem_cons_self b (cs.take i)
      have hclean2 : ∀ y ∈ cs.take i, isCtrl y = false := by
        intro y hy
        apply hclean y
        rw [List.take_succ_cons]
        exact List.mem_cons_of_mem b hy
      have hdrop2 : cs.drop i = x :: rest := by
        rwa [List.drop_succ_cons] at hdrop
      rw [show detectBinaryGo false (b :: cs) n
          = detectBinaryGo false cs (if b = 10 then n + 1 else n) from by
        simp [detectBinaryGo, hb]]
      rw [ih cs _ x rest hclean2 hdrop2 hx]
      congr 1
      rw [List.take_succ_cons, List.count_cons]
      by_cases hb10 : b = 10 <;> simp [hb10] <;> omega

/-! Claims. -/

/-- C1: the claim states that feeding any input chunk by chunk through the
conversion function (as `convert_large_file` does with its 8192-byte read
loop) and concatenating the outputs equals converting the whole input at
once, in particular for a `\r\n` pair split across a chunk boundary. The code
violates this: `dos2unix` is stateless and the loop carries no state between
chunks, so splitting `61 0D 0A 62` into 2-byte chunks leaves the split CRLF
pair unconverted, while the whole-buffer conversion collapses it. -/
theorem c1_chunk_boundary_divergence :
    chunkList 2 [97, 13, 10, 98] = [[97, 13], [10, 98]]
    ∧ chunkedConvert dos2unix 2 [97, 13, 10, 98] = [97, 13, 10, 98]
    ∧ dos2unix [97, 13, 10, 98] = [97, 10, 98] := by
  have h : chunkList 2 [97, 13, 10, 98] = [[97, 13], [10, 98]] := by
    simp [chunkList]
  have h2 : ((chunkList 2 [97, 13, 10, 98]).map dos2unix).flatten = [97, 13, 10, 98] := by
    rw [h]
    decide
  exact ⟨h, h2, by decide⟩

/-- C2: the claim states that the ToDos conversion inserts `\r` exactly
before the `\n` bytes not already preceded by `\r`, never producing a new
`\r\r\n`. The library loop (`convert_line_endings`, ToDos arm) satisfies
this, but main.rs `unix2dos` inserts `\r` before every `\n` unconditionally:
on input `0D 0A` it emits `0D 0D 0A`, a doubled CR, where the library loop
leaves `0D 0A` unchanged. -/
theorem c2_unix2dos_doubles_cr :
    unix2dos [13, 10] = [13, 13, 10]
    ∧ (toDosLoop [13, 10] none).1 = [13, 10] := by decide

/-- C3 counterexample: the claim asserts idempotence for all three modes,
but the ToUnix conversion is not idempotent: `0D 0D 0A` becomes `0D 0A`
after one pass (only the second `\r` forms a CRLF pair) and `0A` after a
second pass. -/
theorem c3_counterexample_tounix :
    ¬ (transcode ConversionMode.ToUnix false
        (transcode ConversionMode.ToUnix false [13, 13, 10])
      = transcode ConversionMode.ToUnix false [13, 13, 10]) := by decide

/-- C3 (amended): applying the ToDos conversion twice yields the same output
as applying it once, for every input and every `add_eol` setting, and
likewise for ToMac; the ToUnix conversion is not idempotent. -/
theorem c3_todos_tomac_idempotent (ae : Bool) (l : List Nat) :
    transcode ConversionMode.ToDos ae (transcode ConversionMode.ToDos ae l)
      = transcode ConversionMode.ToDos ae l
    ∧ transcode ConversionMode.ToMac ae (transcode ConversionMode.ToMac ae l)
      = transcode ConversionMode.ToMac ae l :=
  ⟨transcode_dos_idem ae l, transcode_mac_idem ae l⟩

/-- C4: round trips. For inputs without any `\r` byte, ToDos then ToUnix is
the identity (both for the library transcoder and for the main.rs
`unix2dos`/`dos2unix` pair); for inputs whose line terminators are exactly
`\r\n` pairs (no other `\r`, no lone `\n`), ToUnix then ToDos is the
identity. -/
theorem c4_round_trip (l : List Nat) :
    ((∀ b ∈ l, b ≠ 13) →
      transcode ConversionMode.ToUnix false (transcode ConversionMode.ToDos false l) = l
      ∧ dos2unix (unix2dos l) = l)
    ∧ (crlfOnly l = true →
      transcode ConversionMode.ToDos false (transcode ConversionMode.ToUnix false l) = l
      ∧ unix2dos (dos2unix l) = l) := by
  have e1 : ∀ m, transcode ConversionMode.ToDos false m = (toDosLoop m none).1 := by
    intro m
    simp [transcode, convLoop, eolApp]
  have e2 : ∀ m, transcode ConversionMode.ToUnix false m = (toUnixLoop m none).1 := by
    intro m
    simp [transcode, convLoop, eolApp]
  constructor
  · intro h
    refine ⟨?_, unix2dos_then_dos2unix l h⟩
    rw [e1, e2]
    exact dos_then_unix l none h (by simp) none
  · intro h
    refine ⟨?_, dos2unix_then_unix2dos l h⟩
    rw [e2, e1]
    exact unix_then_dos l h none (by simp) none

/-- C4 witness: the round trips at concrete inputs `a\nb` (no `\r`) and
`a\r\n` (CRLF-only terminators). -/
theorem c4_round_trip_witness :
    (transcode ConversionMode.ToUnix false
        (transcode ConversionMode.ToDos false [97, 10, 98]) = [97, 10, 98]
      ∧ dos2unix (unix2dos [97, 10, 98]) = [97, 10, 98])
    ∧ (transcode ConversionMode.ToDos false
        (transcode ConversionMode.ToUnix false [97, 13, 10]) = [97, 13, 10]
      ∧ unix2dos (dos2unix [97, 13, 10]) = [97, 13, 10]) :=
  ⟨(c4_round_trip [97, 10, 98]).1 (by decide), (c4_round_trip [97, 13, 10]).2 (by decide)⟩

/-- C5: the binary classifier. With `force` the scan never errors; without
`force` it succeeds exactly on inputs free of control markers, and on the
first control marker `x` (at position `i`, everything before it clean) it
errors with the byte value and the 1-based line number `1 +` the count of
`\n` bytes strictly before the flagged byte. -/
theorem c5_detect_binary_contract (content : List Nat) :
    detect_binary content true = Except.ok ()
    ∧ ((∀ b ∈ content, isCtrl b = false) → detect_binary content false = Except.ok ())
    ∧ (∀ i x rest, (∀ b ∈ content.take i, isCtrl b = false) →
        content.drop i = x :: rest → isCtrl x = true →
        detect_binary content false = Except.error (x, 1 + (content.take i).count 10)) := by
  refine ⟨detectBinaryGo_force content 1, fun h => detectBinaryGo_clean content 1 h, ?_⟩
  intro i x rest h1 h2 h3
  exact detectBinaryGo_error i content 1 x rest h1 h2 h3

/-- C5 witness: input `a\x01b` reports byte 0x01 at line 1 without `force`
and passes with `force`. -/
theorem c5_detect_binary_contract_witness :
    detect_binary [97, 1, 98] false = Except.error (1, 1)
    ∧ detect_binary [97, 1, 98] true = Except.ok () := by
  constructor
  · have h := (c5_detect_binary_contract [97, 1, 98]).2.2 1 1 [98]
      (by decide) (by decide) (by decide)
    simpa using h
  · exact (c5_detect_binary_contract [97, 1, 98]).1

/-- C6: the claim states that any failure before the final rename completes
leaves the original file byte-identical at its path. main.rs `convert_file`
violates this: without backup it runs `fs::remove_file(input)` before the
final rename, so stopping after the first three steps (write tmp, copy
times, remove original) — i.e. when the final rename fails — leaves nothing
at the original path. Running all four steps replaces the content, showing
the stop is strictly before the final rename. -/
theorem c6_main_convert_file_not_atomic :
    (runUpTo (mainConvertFileSteps false (dos2unix [97, 13, 10])) 3
      { orig := some [97, 13, 10], tmp := none, bak := none }).orig = none
    ∧ runSteps (mainConvertFileSteps false (dos2unix [97, 13, 10]))
      { orig := some [97, 13, 10], tmp := none, bak := none }
      = { orig := some [97, 10], tmp := none, bak := none } := by decide

/-- C7: the claim states the backup is made by copying, leaving the original
in place until the swap. lib.rs `process_file` does copy (after its backup
step the original is still at its path), but main.rs `convert_file` uses
`fs::rename(input, &backup_path)`: after its backup step the original path
is already empty and the content only survives at the backup path. -/
theorem c7_main_backup_moves_original :
    (runUpTo (mainConvertFileSteps true (dos2unix [97, 13, 10])) 3
      { orig := some [97, 13, 10], tmp := none, bak := none }).orig = none
    ∧ (runUpTo (mainConvertFileSteps true (dos2unix [97, 13, 10])) 3
      { orig := some [97, 13, 10], tmp := none, bak := none }).bak = some [97, 13, 10]
    ∧ (runUpTo (libProcessFileSteps true [97, 10]) 1
      { orig := some [97, 13, 10], tmp := none, bak := none }).orig = some [97, 13, 10]
    ∧ (runUpTo (libProcessFileSteps true [97, 10]) 1
      { orig := some [97, 13, 10], tmp := none, bak := none }).bak = some [97, 13, 10] := by
  decide

/-- C8: `detect_encoding_and_bom`. An explicit (non-"auto") encoding is
returned with `bom_length 0` for every source; under "auto" the three BOM
patterns are recognised in priority order with their lengths, the empty
source is the only error (and only under "auto"), and everything else falls
back to UTF-8 with `bom_length 0`. -/
theorem c8_detect_encoding_contract (specified : String) (content : List Nat) :
    (specified ≠ "auto" →
      detect_encoding_and_bom specified content = Except.ok (get_encoding specified, 0))
    ∧ (∀ t, content = 239 :: 187 :: 191 :: t →
      detect_encoding_and_bom "auto" content = Except.ok (EncodingKind.UTF8, 3))
    ∧ (∀ t, content = 255 :: 254 :: t →
      detect_encoding_and_bom "auto" content = Except.ok (EncodingKind.UTF16LE, 2))
    ∧ (∀ t, content = 254 :: 255 :: t →
      detect_encoding_and_bom "auto" content = Except.ok (EncodingKind.UTF16BE, 2))
    ∧ (content = [] →
      detect_encoding_and_bom "auto" content = Except.error "File is empty")
    ∧ (content ≠ [] → (∀ t, content ≠ 239 :: 187 :: 191 :: t) →
        (∀ t, content ≠ 255 :: 254 :: t) → (∀ t, content ≠ 254 :: 255 :: t) →
        detect_encoding_and_bom "auto" content = Except.ok (EncodingKind.UTF8, 0))
    ∧ (∀ msg, detect_encoding_and_bom specified content = Except.error msg →
        specified = "auto" ∧ content = []) := by
  refine ⟨?_, ?_, ?_, ?_, ?_, ?_, ?_⟩
  · intro h
    simp [detect_encoding_and_bom, h]
  · intro t ht
    subst ht
    have hc1 : 3 ≤ min (239 :: 187 :: 191 :: t).length 4
        ∧ (239 :: 187 :: 191 :: t).take 3 = [239, 187, 191] := by
      refine ⟨?_, rfl⟩
      simp only [List.length_cons]
      omega
    simp only [detect_encoding_and_bom, if_neg (by simp : ¬("auto" ≠ "auto"))]
    rw [if_pos hc1]
  · intro t ht
    subst ht
    have hc1 : ¬(3 ≤ min (255 :: 254 :: t).length 4
        ∧ (255 :: 254 :: t).take 3 = [239, 187, 191]) := by
      intro hcon
      simp [List.take_succ_cons] at hcon
    have hc2 : 2 ≤ min (255 :: 254 :: t).length 4
        ∧ (255 :: 254 :: t).take 2 = [255, 254] := by
      refine ⟨?_, rfl⟩
      simp only [List.length_cons]
      omega
    simp only [detect_encoding_and_bom, if_neg (by simp : ¬("auto" ≠ "auto"))]
    rw [if_neg hc1, if_pos hc2]
  · intro t ht
    subst ht
    have hc1 : ¬(3 ≤ min (254 :: 255 :: t).length 4
        ∧ (254 :: 255 :: t).take 3 = [239, 187, 191]) := by
      intro hcon
      simp [List.take_succ_cons] at hcon
    have hc2 : ¬(2 ≤ min (254 :: 255 :: t).length 4
        ∧ (254 :: 255 :: t).take 2 = [255, 254]) := by
      intro hcon
      simp [List.take_succ_cons] at hcon
    have hc3 : 2 ≤ min (254 :: 255 :: t).length 4
        ∧ (254 :: 255 :: t).take 2 = [254, 255] := by
      refine ⟨?_, rfl⟩
      simp only [List.length_cons]
      omega
    simp only [detect_encoding_and_bom, if_neg (by simp : ¬("auto" ≠ "auto"))]
    rw [if_neg hc1, if_neg hc2, if_pos hc3]
  · intro h
    subst h
    rfl
  · intro hne hn1 hn2 hn3
    cases content with
    | nil => exact absurd rfl hne
    | cons a rest =>
      have hc1 : ¬(3 ≤ min (a :: rest).length 4
          ∧ (a :: rest).take 3 = [239, 187, 191]) := by
        rintro ⟨hlen, htake⟩
        apply hn1 ((a :: rest).drop 3)
        conv_lhs => rw [← List.take_append_drop 3 (a :: rest)]
        rw [htake]
        rfl
      have hc2 : ¬(2 ≤ min (a :: rest).length 4
          ∧ (a :: rest).take 2 = [255, 254]) := by
        rintro ⟨hlen, htake⟩
        apply hn2 ((a :: rest).drop 2)
        conv_lhs => rw [← List.take_append_drop 2 (a :: rest)]
        rw [htake]
        rfl
      have hc3 : ¬(2 ≤ min (a :: rest).length 4
          ∧ (a :: rest).take 2 = [254, 255]) := by
        rintro ⟨hlen, htake⟩
        apply hn3 ((a :: rest).drop 2)
        conv_lhs => rw [← List.take_append_drop 2 (a :: rest)]
        rw [htake]
        rfl
      have hc4 : ¬(min (a :: rest).length 4 = 0) := by
        simp only [List.length_cons]
        omega
      simp only [detect_encoding_and_bom, if_neg (by simp : ¬("auto" ≠ "auto"))]
      rw [if_neg hc1, if_neg hc2, if_neg hc3, if_neg hc4]
  · intro msg hmsg
    by_cases hs : specified = "auto"
    · subst hs
      refine ⟨rfl, ?_⟩
      by_contra hne
      cases content with
      | nil => exact hne rfl
      | cons a rest =>
        revert hmsg
        simp only [detect_encoding_and_bom, if_neg (by simp : ¬("auto" ≠ "auto"))]
        split_ifs with h1 h2 h3 h4
        · simp
        · simp
        · simp
        · exfalso
          simp only [List.length_cons] at h4
          omega
        · simp
    · rw [detect_encoding_and_bom, if_pos hs] at hmsg
      exact absurd hmsg (by simp)

/-- C8 witness: explicit encodings bypass sniffing regardless of content;
the three BOMs are recognised; the empty "auto" source is the error case. -/
theorem c8_detect_encoding_contract_witness :
    detect_encoding_and_bom "utf16be" [255, 254, 97] = Except.ok (EncodingKind.UTF16BE, 0)
    ∧ detect_encoding_and_bom "auto" [239, 187, 191, 97] = Except.ok (EncodingKind.UTF8, 3)
    ∧ detect_encoding_and_bom "auto" [255, 254] = Except.ok (EncodingKind.UTF16LE, 2)
    ∧ detect_encoding_and_bom "auto" [254, 255, 0, 97] = Except.ok (EncodingKind.UTF16BE, 2)
    ∧ detect_encoding_and_bom "auto" [] = Except.error "File is empty"
    ∧ detect_encoding_and_bom "auto" [97, 98] = Except.ok (EncodingKind.UTF8, 0) := by
  refine ⟨?_, ?_, ?_, ?_, ?_, ?_⟩
  · have h := (c8_detect_encoding_contract "utf16be" [255, 254, 97]).1 (by decide)
    rwa [show get_encoding "utf16be" = EncodingKind.UTF16BE from by decide] at h
  · exact (c8_detect_encoding_contract "auto" [239, 187, 191, 97]).2.1 [97] rfl
  · exact (c8_detect_encoding_contract "auto" [255, 254]).2.2.1 [] rfl
  · exact (c8_detect_encoding_contract "auto" [254, 255, 0, 97]).2.2.2.1 [0, 97] rfl
  · exact (c8_detect_encoding_contract "auto" []).2.2.2.2.1 rfl
  · exact (c8_detect_encoding_contract "auto" [97, 98]).2.2.2.2.2.1
      (by decide) (fun t => by simp) (fun t => by simp) (fun t => by simp)

/-- C9: the claim states that with `keep_bom` the output starts with the BOM
exactly once, with `remove_bom` it starts at the first post-BOM content
byte, and `remove_bom` wins when both are set. main.rs `convert_file`
violates this: the explicit-encoding decoder already strips the BOM while
reading, so `content` is the post-BOM text; on the spec's own five-byte
input `EF BB BF 61 0A` both the `keep_bom` write of `content[..3]` and the
`remove_bom` slice of `content[3..]` are out of range (a panic, `none`
below), and on a longer input `keep_bom` emits no BOM at all but duplicates
the first three content bytes, while `remove_bom` discards three content
bytes instead of the already-removed BOM. The library `convert_line_endings`,
in contrast, emits the BOM exactly once. -/
theorem c9_bom_handling_divergence :
    convert_file_output [239, 187, 191, 97, 10] 3 true false dos2unix = none
    ∧ convert_file_output [239, 187, 191, 97, 10] 3 false true dos2unix = none
    ∧ convert_file_output [239, 187, 191, 97, 98, 99, 10] 3 true false dos2unix
      = some [97, 98, 99, 97, 98, 99, 10]
    ∧ convert_file_output [239, 187, 191, 97, 98, 99, 10] 3 false true dos2unix
      = some [10]
    ∧ convert_file_output [239, 187, 191, 97, 98, 99, 10] 3 true true dos2unix
      = some [10]
    ∧ convert_line_endings [239, 187, 191, 97, 10] true false ConversionMode.ToUnix false
      = Except.ok [239, 187, 191, 97, 10]
    ∧ detect_encoding_and_bom "auto" [239, 187, 191, 97, 10]
      = Except.ok (EncodingKind.UTF8, 3) := by decide

/-- C10: in the unix2dos binary the `-m`/`--mac` flag never changes the
selected conversion: all three call sites compute `ToDos` whether or not
`mac_mode` is set, and the ToDos conversion leaves a buffer with no `\n`
(i.e. one whose line endings are all lone `\r`) completely unchanged, so Mac
line endings are not converted. -/
theorem c10_mac_flag_no_effect :
    (∀ m : Bool, unix2dosSelectMode m = ConversionMode.ToDos)
    ∧ (∀ (l : List Nat) (p : Option Nat), (∀ b ∈ l, b ≠ 10) → (toDosLoop l p).1 = l) := by
  constructor
  · intro m
    cases m <;> rfl
  · intro l p h
    exact toDosLoop_no_lf l p h

/-- C10 witness: with `--mac` the selected mode is still ToDos, and the Mac
file `l\rl\r` is left unchanged by the ToDos conversion. -/
theorem c10_mac_flag_no_effect_witness :
    unix2dosSelectMode true = ConversionMode.ToDos
    ∧ (toDosLoop [108, 13, 108, 13] none).1 = [108, 13, 108, 13] :=
  ⟨c10_mac_flag_no_effect.1 true,
    c10_mac_flag_no_effect.2 [108, 13, 108, 13] none (by decide)⟩
